import Mathlib

/-!
Verification of the search-and-tree-flattening engine of `fsok` (src/fsok.py),
a keystroke-driven file browser.  Strings are modelled as `List Char`; the
Python functions `search_files`, `fzf_search`, `move_active`, `path_splitter`,
`create_levels` and `find_files` are embedded as pure Lean functions below,
with external effects (the fzf process, the file system) passed in as explicit
parameters.
-/

namespace Fsok

/-- Python strings, modelled as lists of characters. -/
abbrev Str := List Char

/-- Python's substring test `needle in hay` (contiguous substring). -/
def pyIn (needle hay : Str) : Bool := decide (needle <:+: hay)

/-- The `tail` of `posixpath.split`: `p[i:]` with `i = p.rfind('/') + 1`,
i.e. the maximal `'/'`-free suffix of `p`. -/
def pySplitTail (p : Str) : Str :=
  (p.reverse.takeWhile (fun c => c ≠ '/')).reverse

/-- The raw `head` of `posixpath.split`: `p[:i]`, everything up to and
including the last `'/'`. -/
def pySplitHeadRaw (p : Str) : Str :=
  p.take (p.length - (pySplitTail p).length)

/-- `posixpath.split p`: `(head, tail)` where the raw head has its trailing
slashes stripped unless it consists only of slashes
(`if head and head != '/'*len(head): head = head.rstrip('/')`; an empty
head also satisfies `head == '/'*len(head)` and is returned as is, matching
Python's falsy test). -/
def pySplit (p : Str) : Str × Str :=
  (if (pySplitHeadRaw p).all (fun c => c = '/') then pySplitHeadRaw p
   else ((pySplitHeadRaw p).reverse.dropWhile (fun c => c = '/')).reverse,
   pySplitTail p)

/-- `posixpath.join a b` (the two-argument form used by the source):
if `b` is absolute it wins; otherwise `b` is appended to `a`, inserting a
separator unless `a` is empty or already ends with one. -/
def pyJoin (a b : Str) : Str :=
  if b.take 1 = ['/'] then b
  else if a = [] ∨ a.getLast? = some '/' then a ++ b
  else a ++ '/' :: b

/-- Python `str.strip()`: remove whitespace from both ends. -/
def pyStrip (s : Str) : Str :=
  ((s.dropWhile Char.isWhitespace).reverse.dropWhile Char.isWhitespace).reverse

/-- Fuel-indexed version of the source's recursive `path_splitter`.  The
Python recursion `path_splitter(t)` does not terminate when the head of the
split stops shrinking (absolute paths, e.g. `"/"`), where Python dies with a
`RecursionError`; exhausted fuel stands for that case.  All theorems below
supply enough fuel (relative paths) so the value agrees with the source. -/
def path_splitter_fuel : Nat → Str → List (Str × Str)
  | 0, _ => []
  | n + 1, p =>
    if (pySplit p).1 ≠ [] then
      path_splitter_fuel n (pySplit p).1 ++ [((pySplit p).1, (pySplit p).2)]
    else if (pySplit p).2 ≠ [] then [([], (pySplit p).2)]
    else []

/-- `path_splitter(p)`: recursively split a file path into `(parent, name)`
pairs, root-first.  `p.length + 1` fuel suffices for every relative path. -/
def path_splitter (p : Str) : List (Str × Str) :=
  path_splitter_fuel (p.length + 1) p

/-- `fzf_search`, as a function of the raw stdout produced by the external
`fzf` process: `output.strip().split('\n')`. -/
def fzf_search (output : Str) : List Str :=
  (pyStrip output).splitOn '\n'

/-- The hits computation of `search_files`.  `files` and `searchstr` are the
globals of the same name; `fzf_match` selects the delegated fuzzy mode, whose
external stdout is the parameter `fzfOutput`.  The Python loop appends each
matching file once (the inner `for t in toks: ... break` short-circuits over
sub-tokens); `List.any` performs exactly that short-circuit scan. -/
def search_hits (files : List Str) (searchstr : Str) (fzf_match : Bool)
    (fzfOutput : Str) : List Str :=
  if searchstr = [] then files
  else if fzf_match then fzf_search fzfOutput
  else
    let tok := searchstr
    let toks := tok.splitOn '|'
    let multi := decide ('|' ∈ tok)
    files.foldl
      (fun hits f =>
        if multi then
          if toks.any (fun t => pyIn t f) then hits ++ [f] else hits
        else
          if pyIn tok f then hits ++ [f] else hits)
      []

/-- `active` after `search_files`: 0 when there are hits, -1 otherwise. -/
def post_search_active (hits : List Str) : Int :=
  if hits = [] then -1 else 0

/-- One entry of the per-hit `levels` list built inside `create_levels`:
the tuple `(i, line, x[0], name, os.path.join(x[0], x[1]))`. -/
structure Seg where
  level : Nat
  xline : Nat
  parent : Str
  name : Str
  fullpath : Str
deriving DecidableEq, Repr

/-- The directory marker `"▽ {}"` prefixed to non-final path segments. -/
def glyph : Str := ['▽', ' ']

/-- The `levels` list computed for one hit `f` on output line `ln`:
enumerate `path_splitter f`, marking every segment but the last as a
directory. -/
def hit_levels (ln : Nat) (f : Str) : List Seg :=
  let pt := path_splitter f
  pt.enum.map fun ix =>
    let name := if ix.1 < pt.length - 1 then glyph ++ ix.2.2 else ix.2.2
    ⟨ix.1, ln, ix.2.1, name, pyJoin ix.2.1 ix.2.2⟩

/-- An entry of `curr_levels`: `(level, xline, name, fullpath)`. -/
structure DNode where
  level : Nat
  xline : Nat
  name : Str
  fullpath : Str
deriving DecidableEq, Repr

/-- An entry of `treeview_levels`: `(level, cache[fullpath], name)`. -/
structure TNode where
  level : Nat
  lines : List Nat
  name : Str
deriving DecidableEq, Repr

/-- The loop state of `create_levels`: the `used` set (insertion list; only
membership is observed), `curr_levels`, and the insertion-ordered dict
`cache` as an association list. -/
structure FState where
  used : List Str
  curr : List DNode
  cache : List (Str × List Nat)
deriving Repr

/-- `cache[fullpath].append(xline)`: append to the (unique) entry with the
given key. -/
def cache_append (c : List (Str × List Nat)) (k : Str) (v : Nat) :
    List (Str × List Nat) :=
  c.map fun e => if e.1 = k then (e.1, e.2 ++ [v]) else e

/-- `cache[k]` lookup.  The default `[]` is never hit on the states the
program builds, where every `curr_levels` fullpath is a key of `cache`
(Python would raise `KeyError` otherwise). -/
def cache_get (c : List (Str × List Nat)) (k : Str) : List Nat :=
  ((c.find? fun e => e.1 = k).map Prod.snd).getD []

/-- The body of the second inner loop of `create_levels`, processing one
`levels` entry: a fresh fullpath allocates a node and a singleton cache
entry, a seen fullpath only appends its line number. -/
def add_level (st : FState) (e : Seg) : FState :=
  if e.fullpath ∈ st.used then
    { st with cache := cache_append st.cache e.fullpath e.xline }
  else
    { used := st.used ++ [e.fullpath],
      curr := st.curr ++ [⟨e.level, e.xline, e.name, e.fullpath⟩],
      cache := st.cache ++ [(e.fullpath, [e.xline])] }

/-- All `levels` entries produced by the outer loop of `create_levels`, in
processing order: hit 0's segments, then hit 1's, ... (`line` is incremented
once per hit). -/
def level_stream (hits : List Str) : List Seg :=
  (hits.enum.map fun p => hit_levels p.1 p.2).flatten

/-- The state after both loops of `create_levels` have run over `hits`. -/
def flatten_state (hits : List Str) : FState :=
  (level_stream hits).foldl add_level ⟨[], [], []⟩

/-- `create_levels`: the final `treeview_levels`, one `TNode` per
`curr_levels` entry carrying its cached line-index list. -/
def create_levels (hits : List Str) : List TNode :=
  let st := flatten_state hits
  st.curr.map fun nd => ⟨nd.level, cache_get st.cache nd.fullpath, nd.name⟩

/-- The line-index list of the final display node (`treeview_levels[-1]`),
`[]` when there are no nodes. -/
def lastLines (tl : List TNode) : List Nat :=
  match tl.getLast? with
  | some nd => nd.lines
  | none => []

/-- `move_active(up)`, as a function of the globals it reads
(`treeview`, `treeview_levels`, `hits`, `active`) returning the new
`active`.  In tree mode the down bound is `line[0]`, the first element of
the last node's line list (`headI`; the source would raise `IndexError` on
an empty list, which no reachable state produces). -/
def move_active (up : Bool) (treeview : Bool) (tl : List TNode)
    (hits : List Str) (active : Int) : Int :=
  if up then
    if active > 0 then active - 1 else active
  else
    if treeview then
      match tl.getLast? with
      | some nd => if active < (nd.lines.headI : Int) then active + 1 else active
      | none => active
    else
      if active + 1 < (hits.length : Int) then active + 1 else active

/-- The error line written by `find_files` for a missing root. -/
def err_msg (root : Str) : Str :=
  "[ERROR] directory not found: ".toList ++ root ++ ['\n']

/-- `find_files`, as a function of the file system: `isdir` answers
`os.path.isdir`, and `walk r` is the ordered list of file paths the
`os.walk` loop appends for root `r` (exclusion rules included).  A root
that is not a directory aborts with the error message and exit status 1
(`raise SystemExit(1)`); otherwise the per-root lists are concatenated in
the order the roots were given. -/
def find_files (isdir : Str → Bool) (walk : Str → List Str) :
    List Str → Except (Str × Nat) (List Str)
  | [] => .ok []
  | r :: rs =>
    if isdir r then
      match find_files isdir walk rs with
      | .ok fs => .ok (walk r ++ fs)
      | .error e => .error e
    else .error (err_msg r, 1)

/-- The interactive state built from a successful index run:
`find_files` ends with `hits = files; create_levels()`. -/
structure Session where
  files : List Str
  hits : List Str
  levels : List TNode
deriving Repr

/-- Indexing at startup (or reload): the interactive `Session` exists only
when every root is a directory. -/
def startup (isdir : Str → Bool) (walk : Str → List Str) (roots : List Str) :
    Except (Str × Nat) Session :=
  (find_files isdir walk roots).map fun fs => ⟨fs, fs, create_levels fs⟩

/-- First-occurrence deduplication: the order in which distinct values are
first seen in a list. -/
def first_seen (l : List Str) : List Str :=
  l.foldl (fun acc x => if x ∈ acc then acc else acc ++ [x]) []

/-- The valid range of `active` for the current view mode, read off the
sources of `search_files` and `move_active`: never below -1; in flat view
strictly below `len(hits)` (so -1 exactly when `hits` is empty); in tree
view at most `line[0]` of the last display node whenever nodes exist. -/
def nav_ok (treeview : Bool) (tl : List TNode) (hits : List Str) (a : Int) : Prop :=
  -1 ≤ a ∧
    (if treeview then (tl ≠ [] → a ≤ ((lastLines tl).headI : Int))
     else a + 1 ≤ (hits.length : Int))

/-- Apply a sequence of up/down intents (`true` = up) to `active`. -/
def run_moves (treeview : Bool) (tl : List TNode) (hits : List Str)
    (a : Int) (intents : List Bool) : Int :=
  intents.foldl (fun x u => move_active u treeview tl hits x) a

/-- Loop invariant of `create_levels` after processing the prefix `pre` of
the `levels` stream: `used` lists the distinct fullpaths in first-seen
order, `curr_levels` holds one node per `used` entry in that order, the
`cache` keys are exactly `used`, and every key's cached list is the
line number of each of its occurrences so far, in stream order. -/
def FlatInv (pre : List Seg) (st : FState) : Prop :=
  st.used = first_seen (pre.map Seg.fullpath) ∧
  st.curr.map DNode.fullpath = st.used ∧
  st.cache.map Prod.fst = st.used ∧
  ∀ k, cache_get st.cache k = (pre.filter fun e => e.fullpath = k).map Seg.xline

/-! ### General list helpers -/

lemma mem_of_getLast?_eq {α : Type} {l : List α} {a : α} (h : l.getLast? = some a) :
    a ∈ l := by
  induction l using List.reverseRecOn with
  | nil => simp at h
  | append_singleton l b _ =>
    rw [List.getLast?_concat] at h
    cases h
    exact List.mem_append_right l (List.mem_singleton_self a)

lemma foldl_if_append (p : Str → Bool) (l init : List Str) :
    l.foldl (fun acc f => if p f then acc ++ [f] else acc) init = init ++ l.filter p := by
  induction l generalizing init with
  | nil => simp
  | cons a l ih =>
    by_cases h : p a <;> simp [List.filter_cons, h, ih]

/-! ### The Matcher (`search_files`), substring/OR mode -/

lemma any_pyIn_eq (toks : List Str) (f : Str) :
    (toks.any fun t => pyIn t f) = decide (∃ t ∈ toks, t <:+: f) := by
  by_cases h : ∃ t ∈ toks, t <:+: f
  · rw [decide_eq_true h, List.any_eq_true]
    obtain ⟨t, ht, hinf⟩ := h
    exact ⟨t, ht, decide_eq_true hinf⟩
  · rw [decide_eq_false h, ← Bool.not_eq_true, List.any_eq_true]
    rintro ⟨t, ht, hinf⟩
    exact h ⟨t, ht, of_decide_eq_true hinf⟩

/-- The OR branch of `search_files`: with `'|'` in the token, the Hit List is
the in-order filter of `files` by "some sub-token is a substring". -/
lemma or_search_eq_filter (files : List Str) (tok : Str) (out : Str) (h : '|' ∈ tok) :
    search_hits files tok false out
      = files.filter fun f => decide (∃ t ∈ tok.splitOn '|', t <:+: f) := by
  have hne : tok ≠ [] := by rintro rfl; simp at h
  unfold search_hits
  rw [if_neg hne]
  simp only [Bool.false_eq_true, if_false, decide_eq_true h, if_true]
  rw [foldl_if_append, List.nil_append]
  exact List.filter_congr fun f _ => any_pyIn_eq (tok.splitOn '|') f

/-- C1. For every search token containing `'|'`, the substring/OR matcher
returns exactly the paths of which at least one `'|'`-split sub-token is a
contiguous substring, in original path order, each matching path appearing
once (it is a filter of the path list). -/
theorem c1_or_search (files : List Str) (tok : Str) (out : Str) (h : '|' ∈ tok) :
    search_hits files tok false out
      = files.filter fun f => decide (∃ t ∈ tok.splitOn '|', t <:+: f) :=
  or_search_eq_filter files tok out h

/-- Witness for C1 at `files = ["ab", "cd", "ee"]`, `tok = "a|d"`. -/
theorem c1_or_search_witness :
    ('|' ∈ ['a', '|', 'd']) ∧
      search_hits [['a', 'b'], ['c', 'd'], ['e', 'e']] ['a', '|', 'd'] false []
        = [['a', 'b'], ['c', 'd'], ['e', 'e']].filter
            fun f => decide (∃ t ∈ (['a', '|', 'd'] : Str).splitOn '|', t <:+: f) :=
  ⟨by decide, c1_or_search [['a', 'b'], ['c', 'd'], ['e', 'e']] ['a', '|', 'd'] [] (by decide)⟩

/-- C5. For every non-empty token without `'|'`, the Hit List is exactly the
in-order filter of the path list by "the whole token is a substring". -/
theorem c5_substring_search (files : List Str) (tok : Str) (out : Str)
    (hne : tok ≠ []) (h : '|' ∉ tok) :
    search_hits files tok false out = files.filter fun f => decide (tok <:+: f) := by
  unfold search_hits
  rw [if_neg hne]
  simp only [Bool.false_eq_true, if_false, decide_eq_false h, Bool.false_eq_true, if_false]
  rw [foldl_if_append, List.nil_append]
  rfl

/-- Witness for C5 at `files = ["ab", "cd"]`, `tok = "b"`. -/
theorem c5_substring_search_witness :
    (['b'] : Str) ≠ [] ∧ '|' ∉ (['b'] : Str) ∧
      search_hits [['a', 'b'], ['c', 'd']] ['b'] false []
        = [['a', 'b'], ['c', 'd']].filter fun f => decide ((['b'] : Str) <:+: f) :=
  ⟨by decide, by decide,
    c5_substring_search [['a', 'b'], ['c', 'd']] ['b'] [] (by decide) (by decide)⟩

/-- C6. An empty search token passes the full path sequence through
unchanged, in both matcher modes (the source assigns `hits = files` before
the mode is even consulted). -/
theorem c6_empty_token (files : List Str) (fzf_match : Bool) (out : Str) :
    search_hits files [] fzf_match out = files := rfl

/-- C7. A token containing `'|'` that splits into some empty sub-token (for
example a lone leading or trailing `'|'`) matches every path, because the
empty string is a substring of everything: the Hit List is the whole path
list. -/
theorem c7_empty_subtoken (files : List Str) (tok : Str) (out : Str)
    (h : '|' ∈ tok) (hempty : [] ∈ tok.splitOn '|') :
    search_hits files tok false out = files := by
  rw [or_search_eq_filter files tok out h]
  have : ∀ f ∈ files, decide (∃ t ∈ tok.splitOn '|', t <:+: f) = true :=
    fun f _ => decide_eq_true ⟨[], hempty, List.nil_infix⟩
  rw [List.filter_congr fun f hf => (this f hf).trans (decide_eq_true trivial).symm]
  simp

/-- Witness for C7 at `files = ["ab", "cd"]`, `tok = "z|"`. -/
theorem c7_empty_subtoken_witness :
    ('|' ∈ (['z', '|'] : Str)) ∧ ([] ∈ (['z', '|'] : Str).splitOn '|') ∧
      search_hits [['a', 'b'], ['c', 'd']] ['z', '|'] false [] = [['a', 'b'], ['c', 'd']] :=
  ⟨by decide, by decide,
    c7_empty_subtoken [['a', 'b'], ['c', 'd']] ['z', '|'] [] (by decide) (by decide)⟩

/-! ### The delegated fuzzy mode (C2) -/

/-- C2 counterexample.  With a non-empty token, fuzzy mode on, and the
external matcher producing no output (it is absent, its invocation failed,
or nothing matched), the Hit List becomes `[""]` — a one-element list
holding the empty string (`"".strip().split('\n') == ['']`). At
`files = ["a"]`, `tok = "z"` this is neither empty nor the unchanged path
list, refuting the claim as stated. -/
theorem c2_fzf_counterexample :
    search_hits [['a']] ['z'] true [] = [[]] ∧
      search_hits [['a']] ['z'] true [] ≠ [] ∧
      search_hits [['a']] ['z'] true [] ≠ [['a']] := by
  refine ⟨by decide, by decide, by decide⟩

/-- C2 amended.  In delegated fuzzy mode with a non-empty token, an external
run that produces no stdout yields the Hit List `[""]`: a single empty
pseudo-path (which flattens to zero tree rows), not an empty and not an
unchanged list; the interactive loop goes on with that state. -/
theorem c2_fzf_empty_output (files : List Str) (searchstr : Str) (h : searchstr ≠ []) :
    search_hits files searchstr true [] = [[]] := by
  unfold search_hits
  rw [if_neg h]
  rfl

/-- Witness for C2 amended at `files = ["a"]`, `tok = "z"`. -/
theorem c2_fzf_empty_output_witness :
    (['z'] : Str) ≠ [] ∧ search_hits [['a']] ['z'] true [] = [[]] :=
  ⟨by decide, c2_fzf_empty_output [['a']] ['z'] (by decide)⟩

/-! ### The Path Indexer (C9) -/

lemma find_files_ok (isdir : Str → Bool) (walk : Str → List Str) (roots : List Str)
    (h : ∀ r ∈ roots, isdir r = true) :
    find_files isdir walk roots = .ok (roots.map walk).flatten := by
  induction roots with
  | nil => rfl
  | cons r rs ih =>
    rw [find_files, if_pos (h r (List.mem_cons_self r rs)),
      ih fun x hx => h x (List.mem_cons_of_mem r hx)]
    simp

lemma find_files_err (isdir : Str → Bool) (walk : Str → List Str) (roots : List Str)
    (h : ∃ r ∈ roots, isdir r = false) :
    ∃ r ∈ roots, isdir r = false ∧ find_files isdir walk roots = .error (err_msg r, 1) := by
  induction roots with
  | nil => simp at h
  | cons r rs ih =>
    by_cases hr : isdir r = true
    · obtain ⟨x, hx, hxf⟩ := h
      rcases List.mem_cons.mp hx with rfl | hx'
      · rw [hr] at hxf; cases hxf
      · obtain ⟨y, hy, hyf, hyeq⟩ := ih ⟨x, hx', hxf⟩
        refine ⟨y, List.mem_cons_of_mem r hy, hyf, ?_⟩
        rw [find_files, if_pos hr, hyeq]
    · rw [Bool.not_eq_true] at hr
      refine ⟨r, List.mem_cons_self r rs, hr, ?_⟩
      rw [find_files, if_neg (by rw [hr]; exact Bool.false_ne_true)]

/-- C9. Indexing with a root that is not a directory stops with the error
message for (the first) such root and exit status 1, so no interactive
`Session` is built; with every root a directory it succeeds without error,
the files of all roots concatenated in root order. -/
theorem c9_indexing (isdir : Str → Bool) (walk : Str → List Str) (roots : List Str) :
    ((∃ r ∈ roots, isdir r = false) →
      ∃ r ∈ roots, isdir r = false ∧ startup isdir walk roots = .error (err_msg r, 1)) ∧
    ((∀ r ∈ roots, isdir r = true) →
      startup isdir walk roots
        = .ok ⟨(roots.map walk).flatten, (roots.map walk).flatten,
            create_levels (roots.map walk).flatten⟩) := by
  constructor
  · intro h
    obtain ⟨r, hr, hrf, hreq⟩ := find_files_err isdir walk roots h
    exact ⟨r, hr, hrf, by rw [startup, hreq]; rfl⟩
  · intro h
    rw [startup, find_files_ok isdir walk roots h]
    rfl

/-- Witness for C9: a missing root `"x"` fails with status 1, and a good
root `"d"` containing one file succeeds. -/
theorem c9_indexing_witness :
    startup (fun _ => false) (fun _ => []) [['x']] = .error (err_msg ['x'], 1) ∧
    startup (fun _ => true) (fun _ => [['f']]) [['d']]
      = .ok ⟨[['f']], [['f']], create_levels [['f']]⟩ := by
  constructor
  · obtain ⟨r, hr, _, heq⟩ := (c9_indexing (fun _ => false) (fun _ => []) [['x']]).1
      ⟨['x'], List.mem_singleton_self _, rfl⟩
    rcases List.mem_singleton.mp hr with rfl
    exact heq
  · exact ((c9_indexing (fun _ => true) (fun _ => [['f']]) [['d']]).2
      fun r _ => rfl).trans (by simp)

/-! ### The Navigation Controller (C8) -/

lemma lastLines_eq_of_getLast? {tl : List TNode} {nd : TNode}
    (h : tl.getLast? = some nd) : lastLines tl = nd.lines := by
  rw [lastLines, h]

lemma ne_nil_of_getLast? {tl : List TNode} {nd : TNode}
    (h : tl.getLast? = some nd) : tl ≠ [] := by
  rintro rfl; simp at h

/-- One up/down intent keeps `active` in its valid range. -/
lemma nav_ok_move (tv : Bool) (tl : List TNode) (hits : List Str) (u : Bool) (a : Int)
    (h : nav_ok tv tl hits a) : nav_ok tv tl hits (move_active u tv tl hits a) := by
  cases tv with
  | false =>
    simp only [nav_ok, Bool.false_eq_true, if_false] at h ⊢
    cases u with
    | true =>
      simp only [move_active, if_true]
      split_ifs with hgt <;> omega
    | false =>
      simp only [move_active, Bool.false_eq_true, if_false]
      split_ifs with hlt <;> omega
  | true =>
    simp only [nav_ok, if_true] at h ⊢
    cases u with
    | true =>
      simp only [move_active, if_true]
      split_ifs with hgt
      · exact ⟨by omega, fun htl => le_trans (by omega) (h.2 htl)⟩
      · exact h
    | false =>
      simp only [move_active, Bool.false_eq_true, if_false, if_true]
      cases hg : tl.getLast? with
      | none => exact h
      | some nd =>
        dsimp only
        rw [lastLines_eq_of_getLast? hg] at h ⊢
        split_ifs with hlt
        · exact ⟨by omega, fun _ => by omega⟩
        · exact h

/-- C8. Navigation safety: starting from any in-range `active`, every
sequence of up/down intents keeps it in range; "up" is a no-op at 0 and at
-1; "down" is a no-op at the last valid index of the current view mode
(flat: `len(hits) - 1`; tree: the bound recorded in the last display
node). -/
theorem c8_navigation (tv : Bool) (tl : List TNode) (hits : List Str) (a : Int)
    (intents : List Bool) (h : nav_ok tv tl hits a) :
    nav_ok tv tl hits (run_moves tv tl hits a intents) ∧
    (∀ b : Int, b = 0 ∨ b = -1 → move_active true tv tl hits b = b) ∧
    (tv = false → ∀ b : Int, b + 1 = (hits.length : Int) →
      move_active false tv tl hits b = b) ∧
    (tv = true → ∀ b : Int, tl ≠ [] → b = ((lastLines tl).headI : Int) →
      move_active false tv tl hits b = b) := by
  refine ⟨?_, ?_, ?_, ?_⟩
  · rw [run_moves]
    induction intents generalizing a with
    | nil => exact h
    | cons u us ih => exact ih _ (nav_ok_move tv tl hits u a h)
  · intro b hb
    simp only [move_active, if_true]
    rw [if_neg (by omega)]
  · rintro rfl b hb
    simp only [move_active, Bool.false_eq_true, if_false]
    rw [if_neg (by omega)]
  · rintro rfl b htl hb
    simp only [move_active, Bool.false_eq_true, if_false, if_true]
    cases hg : tl.getLast? with
    | none => rfl
    | some nd =>
      dsimp only
      rw [lastLines_eq_of_getLast? hg] at hb
      rw [if_neg (by omega)]

/-- Witness for C8 in tree mode on the tree of `hits = ["a/b"]`, starting
from `active = 0` and moving down, down, up. -/
theorem c8_navigation_witness :
    nav_ok true (create_levels [['a', '/', 'b']]) [['a', '/', 'b']]
      (run_moves true (create_levels [['a', '/', 'b']]) [['a', '/', 'b']] 0
        [false, false, true]) :=
  (c8_navigation true (create_levels [['a', '/', 'b']]) [['a', '/', 'b']] 0
    [false, false, true] ⟨by decide, fun _ => by decide⟩).1

/-! ### The Tree Flattener (C4): first-seen deduplication invariant -/

lemma mem_first_seen_aux (l : List Str) (acc : List Str) (x : Str) :
    x ∈ l.foldl (fun acc y => if y ∈ acc then acc else acc ++ [y]) acc ↔
      x ∈ acc ∨ x ∈ l := by
  induction l generalizing acc with
  | nil => simp
  | cons a l ih =>
    rw [List.foldl_cons, ih]
    by_cases h : a ∈ acc
    · rw [if_pos h]
      simp only [List.mem_cons]
      constructor
      · rintro (hx | hx)
        exacts [Or.inl hx, Or.inr (Or.inr hx)]
      · rintro (hx | rfl | hx)
        exacts [Or.inl hx, Or.inl h, Or.inr hx]
    · rw [if_neg h]
      simp only [List.mem_append, List.mem_singleton, List.mem_cons]
      tauto

lemma mem_first_seen (x : Str) (l : List Str) : x ∈ first_seen l ↔ x ∈ l := by
  rw [first_seen, mem_first_seen_aux]
  simp

lemma nodup_first_seen_aux (l : List Str) (acc : List Str) (h : acc.Nodup) :
    (l.foldl (fun acc y => if y ∈ acc then acc else acc ++ [y]) acc).Nodup := by
  induction l generalizing acc with
  | nil => exact h
  | cons a l ih =>
    rw [List.foldl_cons]
    apply ih
    by_cases hmem : a ∈ acc
    · rwa [if_pos hmem]
    · rw [if_neg hmem]
      simp [List.nodup_append, h, hmem]

lemma nodup_first_seen (l : List Str) : (first_seen l).Nodup :=
  nodup_first_seen_aux l [] List.nodup_nil

lemma first_seen_concat (l : List Str) (x : Str) :
    first_seen (l ++ [x])
      = if x ∈ first_seen l then first_seen l else first_seen l ++ [x] := by
  unfold first_seen
  rw [List.foldl_concat]

/-! Association-list facts about `cache`. -/

lemma cache_get_cons_self {e : Str × List Nat} {c : List (Str × List Nat)} {k : Str}
    (h : e.1 = k) : cache_get (e :: c) k = e.2 := by
  simp [cache_get, List.find?_cons, h]

lemma cache_get_cons_ne {e : Str × List Nat} {c : List (Str × List Nat)} {k : Str}
    (h : ¬e.1 = k) : cache_get (e :: c) k = cache_get c k := by
  simp [cache_get, List.find?_cons, h]

lemma cache_append_cons (e : Str × List Nat) (c : List (Str × List Nat)) (k : Str) (v : Nat) :
    cache_append (e :: c) k v
      = (if e.1 = k then (e.1, e.2 ++ [v]) else e) :: cache_append c k v := rfl

lemma cache_append_keys (c : List (Str × List Nat)) (k : Str) (v : Nat) :
    (cache_append c k v).map Prod.fst = c.map Prod.fst := by
  unfold cache_append
  rw [List.map_map]
  apply List.map_congr_left
  intro e _
  by_cases h : e.1 = k <;> simp [h]

lemma cache_get_append_self (c : List (Str × List Nat)) (k : Str) (v : Nat)
    (hk : k ∈ c.map Prod.fst) :
    cache_get (cache_append c k v) k = cache_get c k ++ [v] := by
  induction c with
  | nil => simp at hk
  | cons e c ih =>
    rw [cache_append_cons]
    by_cases h : e.1 = k
    · rw [if_pos h, cache_get_cons_self h,
        @cache_get_cons_self (e.1, e.2 ++ [v]) (cache_append c k v) k h]
    · rw [if_neg h, cache_get_cons_ne h, cache_get_cons_ne h]
      refine ih ?_
      rcases List.mem_map.mp hk with ⟨x, hx, hfx⟩
      rcases List.mem_cons.mp hx with rfl | hx'
      · exact absurd hfx h
      · exact List.mem_map.mpr ⟨x, hx', hfx⟩

lemma cache_get_append_other (c : List (Str × List Nat)) {k k' : Str} (v : Nat)
    (hne : k' ≠ k) : cache_get (cache_append c k v) k' = cache_get c k' := by
  induction c with
  | nil => rfl
  | cons e c ih =>
    rw [cache_append_cons]
    by_cases h : e.1 = k
    · have hk' : ¬e.1 = k' := fun he => hne (he.symm.trans h)
      rw [if_pos h,
        @cache_get_cons_ne (e.1, e.2 ++ [v]) (cache_append c k v) k' hk',
        cache_get_cons_ne hk']
      exact ih
    · rw [if_neg h]
      by_cases h2 : e.1 = k'
      · rw [cache_get_cons_self h2, cache_get_cons_self h2]
      · rw [cache_get_cons_ne h2, cache_get_cons_ne h2]
        exact ih

lemma cache_get_concat_self (c : List (Str × List Nat)) (k : Str) (l : List Nat)
    (hk : k ∉ c.map Prod.fst) : cache_get (c ++ [(k, l)]) k = l := by
  induction c with
  | nil => exact cache_get_cons_self rfl
  | cons e c ih =>
    rw [List.cons_append, cache_get_cons_ne (fun he => hk (by simp [he]))]
    exact ih fun hmem => hk (List.mem_cons_of_mem _ hmem)

lemma cache_get_concat_other (c : List (Str × List Nat)) {k k' : Str} (l : List Nat)
    (hne : k' ≠ k) : cache_get (c ++ [(k, l)]) k' = cache_get c k' := by
  induction c with
  | nil =>
    rw [List.nil_append, cache_get_cons_ne (fun he => hne he.symm)]
  | cons e c ih =>
    by_cases h2 : e.1 = k'
    · rw [List.cons_append, cache_get_cons_self h2, cache_get_cons_self h2]
    · rw [List.cons_append, cache_get_cons_ne h2, cache_get_cons_ne h2]
      exact ih

/-- Processing one `levels` entry preserves the flattening invariant. -/
lemma flatInv_add_level {pre : List Seg} {st : FState} (e : Seg)
    (h : FlatInv pre st) : FlatInv (pre ++ [e]) (add_level st e) := by
  obtain ⟨hu, hc, hk, hg⟩ := h
  unfold add_level
  by_cases hmem : e.fullpath ∈ st.used
  · rw [if_pos hmem]
    refine ⟨?_, hc, ?_, ?_⟩
    · rw [List.map_append, List.map_cons, List.map_nil, first_seen_concat,
        if_pos (hu ▸ hmem)]
      exact hu
    · rw [cache_append_keys]
      exact hk
    · intro k
      rw [List.filter_append, List.map_append]
      by_cases hkk : k = e.fullpath
      · subst hkk
        rw [cache_get_append_self _ _ _ (by rw [hk]; exact hmem), hg e.fullpath]
        have heq : ([e].filter fun x => x.fullpath = e.fullpath) = [e] := by
          simp [List.filter_cons]
        rw [heq]
        rfl
      · rw [cache_get_append_other _ _ hkk, hg k]
        have hne' : ¬e.fullpath = k := fun he => hkk he.symm
        have heq : ([e].filter fun x => x.fullpath = k) = [] := by
          simp [List.filter_cons, hne']
        rw [heq]
        simp
  · rw [if_neg hmem]
    have hfresh : e.fullpath ∉ pre.map Seg.fullpath := fun hx =>
      hmem (hu ▸ (mem_first_seen _ _).mpr hx)
    refine ⟨?_, ?_, ?_, ?_⟩
    · rw [List.map_append, List.map_cons, List.map_nil, first_seen_concat,
        if_neg (hu ▸ hmem), hu]
    · rw [List.map_append, hc]
      rfl
    · rw [List.map_append, hk]
      rfl
    · intro k
      rw [List.filter_append, List.map_append]
      by_cases hkk : k = e.fullpath
      · subst hkk
        rw [cache_get_concat_self _ _ _ (by rw [hk]; exact hmem)]
        have hpre : (pre.filter fun x => x.fullpath = e.fullpath) = [] := by
          rw [List.filter_eq_nil_iff]
          intro a ha hfa
          exact hfresh (List.mem_map.mpr ⟨a, ha, of_decide_eq_true hfa⟩)
        have heq : ([e].filter fun x => x.fullpath = e.fullpath) = [e] := by
          simp [List.filter_cons]
        rw [hpre, heq]
        rfl
      · rw [cache_get_concat_other _ _ hkk, hg k]
        have hne' : ¬e.fullpath = k := fun he => hkk he.symm
        have heq : ([e].filter fun x => x.fullpath = k) = [] := by
          simp [List.filter_cons, hne']
        rw [heq]
        simp

lemma flatInv_foldl (l : List Seg) :
    ∀ pre st, FlatInv pre st → FlatInv (pre ++ l) (l.foldl add_level st) := by
  induction l with
  | nil =>
    intro pre st h
    simpa using h
  | cons e l ih =>
    intro pre st h
    rw [List.foldl_cons]
    have := ih (pre ++ [e]) (add_level st e) (flatInv_add_level e h)
    simpa [List.append_assoc] using this

lemma flatInv_flatten_state (hits : List Str) :
    FlatInv (level_stream hits) (flatten_state hits) := by
  have h0 : FlatInv [] ⟨[], [], []⟩ := ⟨rfl, rfl, rfl, fun _ => rfl⟩
  have := flatInv_foldl (level_stream hits) [] ⟨[], [], []⟩ h0
  simpa [flatten_state] using this

/-- C4. The Tree Flattener allocates exactly one Display Node per distinct
cumulative-segment full path occurring across the whole hit stream, in
first-seen order (so the node list keyed by fullpath is duplicate-free),
and each node's line-index list is exactly the output line number of every
stream occurrence of its full path, in hit order — one entry per segment a
hit passes through, shared ancestors included. -/
theorem c4_tree_flattener (hits : List Str) :
    (flatten_state hits).curr.map DNode.fullpath
        = first_seen ((level_stream hits).map Seg.fullpath) ∧
    ((flatten_state hits).curr.map DNode.fullpath).Nodup ∧
    (∀ nd ∈ (flatten_state hits).curr,
      cache_get (flatten_state hits).cache nd.fullpath
        = ((level_stream hits).filter fun e => e.fullpath = nd.fullpath).map Seg.xline) ∧
    create_levels hits
      = (flatten_state hits).curr.map fun nd =>
          ⟨nd.level,
            ((level_stream hits).filter fun e => e.fullpath = nd.fullpath).map Seg.xline,
            nd.name⟩ := by
  obtain ⟨hu, hc, hk, hg⟩ := flatInv_flatten_state hits
  refine ⟨hc.trans hu, ?_, fun nd _ => hg nd.fullpath, ?_⟩
  · rw [hc, hu]
    exact nodup_first_seen _
  · rw [create_levels]
    exact List.map_congr_left fun nd _ => by rw [hg nd.fullpath]

/-- Witness for C4 on `hits = ["a/b", "a/c"]`: the two hits share the
ancestor `"a"`, which gets one node carrying both lines. -/
theorem c4_tree_flattener_witness :
    (flatten_state [['a', '/', 'b'], ['a', '/', 'c']]).curr.map DNode.fullpath
        = first_seen ((level_stream [['a', '/', 'b'], ['a', '/', 'c']]).map Seg.fullpath) ∧
    ((flatten_state [['a', '/', 'b'], ['a', '/', 'c']]).curr.map DNode.fullpath).Nodup ∧
    create_levels [['a', '/', 'b'], ['a', '/', 'c']]
      = (flatten_state [['a', '/', 'b'], ['a', '/', 'c']]).curr.map fun nd =>
          ⟨nd.level,
            ((level_stream [['a', '/', 'b'], ['a', '/', 'c']]).filter
              fun e => e.fullpath = nd.fullpath).map Seg.xline,
            nd.name⟩ :=
  ⟨(c4_tree_flattener [['a', '/', 'b'], ['a', '/', 'c']]).1,
    (c4_tree_flattener [['a', '/', 'b'], ['a', '/', 'c']]).2.1,
    (c4_tree_flattener [['a', '/', 'b'], ['a', '/', 'c']]).2.2.2⟩

/-! ### Tree-mode "down" navigation (C3) -/

lemma xline_of_mem_hit_levels {ln : Nat} {f : Str} {e : Seg}
    (h : e ∈ hit_levels ln f) : e.xline = ln := by
  rw [hit_levels, List.mem_map] at h
  obtain ⟨ix, _, rfl⟩ := h
  rfl

/-- Output line numbers are non-decreasing along the `levels` stream: the
outer loop of `create_levels` increments `line` once per hit. -/
lemma level_stream_xline_pairwise (hits : List Str) :
    (level_stream hits).Pairwise fun a b => a.xline ≤ b.xline := by
  rw [level_stream, List.pairwise_flatten]
  constructor
  · intro l hl
    rcases List.mem_map.mp hl with ⟨p, _, rfl⟩
    apply List.pairwise_of_forall_mem_list
    intro x hx y hy
    rw [xline_of_mem_hit_levels hx, xline_of_mem_hit_levels hy]
  · rw [List.pairwise_map]
    have henum : hits.enum.Pairwise fun p q => p.1 < q.1 := by
      have h1 : (hits.enum.map Prod.fst).Pairwise (· < ·) := by
        rw [List.enum_map_fst]
        exact List.pairwise_lt_range _
      rwa [List.pairwise_map] at h1
    refine henum.imp ?_
    intro p q hpq x hx y hy
    rw [xline_of_mem_hit_levels hx, xline_of_mem_hit_levels hy]
    exact le_of_lt hpq

lemma headI_le_of_sorted {l : List Nat} (h : l.Pairwise (· ≤ ·)) :
    ∀ m ∈ l, l.headI ≤ m := by
  cases l with
  | nil => simp
  | cons a t =>
    intro m hm
    rcases List.mem_cons.mp hm with rfl | hm'
    · exact le_refl m
    · exact (List.pairwise_cons.mp h).1 m hm'

/-- C3 counterexample.  `hits = ["a", "a"]` (reachable: overlapping or
repeated roots index the same file twice) flattens to the single node
`(0, [0, 1], "a")`.  The maximum line number in the final node's line-index
set is 1 and `active = 0 < 1`, yet "down" does not move: the source bounds
the move by `line[0] = 0`, the *first* recorded line number, not the
maximum. -/
theorem c3_down_counterexample :
    create_levels [['a'], ['a']] ≠ [] ∧
      (1 ∈ lastLines (create_levels [['a'], ['a']])) ∧
      (∀ m ∈ lastLines (create_levels [['a'], ['a']]), m ≤ 1) ∧
      move_active false true (create_levels [['a'], ['a']]) [['a'], ['a']] 0 = 0 := by
  refine ⟨by decide, by decide, by decide, by decide⟩

/-- C3 amended.  In tree view with a non-empty Display Node sequence
produced by the flattener, "down" increments `active` by 1 exactly when
`active` is less than the *first-recorded* line number of the final
Display Node's line-index set — which is that set's minimum, the sets
being recorded in increasing hit order — and is a no-op otherwise.  (The
first equals the maximum exactly when that set is a singleton, e.g. for
duplicate-free hit lists.) -/
theorem c3_down_amended (hits : List Str) (active : Int)
    (h : create_levels hits ≠ []) :
    lastLines (create_levels hits) ≠ [] ∧
    (∀ m ∈ lastLines (create_levels hits),
      (lastLines (create_levels hits)).headI ≤ m) ∧
    move_active false true (create_levels hits) hits active
      = if active < ((lastLines (create_levels hits)).headI : Int)
        then active + 1 else active := by
  obtain ⟨hu, hc, hk, hg⟩ := flatInv_flatten_state hits
  have hcurr : (flatten_state hits).curr ≠ [] := by
    intro hnil
    rw [create_levels, hnil] at h
    exact h rfl
  obtain ⟨nd, hnd⟩ : ∃ nd, (flatten_state hits).curr.getLast? = some nd := by
    cases hlast : (flatten_state hits).curr.getLast? with
    | none => exact absurd (List.getLast?_eq_none_iff.mp hlast) hcurr
    | some nd => exact ⟨nd, rfl⟩
  have hmem : nd ∈ (flatten_state hits).curr := mem_of_getLast?_eq hnd
  have htl : (create_levels hits).getLast?
      = some ⟨nd.level, cache_get (flatten_state hits).cache nd.fullpath, nd.name⟩ := by
    rw [create_levels, List.getLast?_map, hnd]
    rfl
  have hlines : lastLines (create_levels hits)
      = cache_get (flatten_state hits).cache nd.fullpath := by
    rw [lastLines, htl]
  have hocc : cache_get (flatten_state hits).cache nd.fullpath
      = ((level_stream hits).filter fun e => e.fullpath = nd.fullpath).map Seg.xline :=
    hg nd.fullpath
  have hne : lastLines (create_levels hits) ≠ [] := by
    rw [hlines, hocc]
    have hfp : nd.fullpath ∈ (level_stream hits).map Seg.fullpath := by
      rw [← mem_first_seen, ← hu, ← hc]
      exact List.mem_map_of_mem DNode.fullpath hmem
    rcases List.mem_map.mp hfp with ⟨e, he, hfe⟩
    have : e ∈ (level_stream hits).filter fun x => x.fullpath = nd.fullpath :=
      List.mem_filter.mpr ⟨he, decide_eq_true hfe⟩
    intro hnil
    rw [List.map_eq_nil_iff] at hnil
    rw [hnil] at this
    exact absurd this (List.not_mem_nil e)
  have hsorted : (lastLines (create_levels hits)).Pairwise (· ≤ ·) := by
    rw [hlines, hocc, List.pairwise_map]
    exact (level_stream_xline_pairwise hits).sublist (List.filter_sublist _)
  refine ⟨hne, headI_le_of_sorted hsorted, ?_⟩
  show (if true = true then
      match (create_levels hits).getLast? with
      | some nd => if active < (nd.lines.headI : Int) then active + 1 else active
      | none => active
    else if active + 1 < (hits.length : Int) then active + 1 else active) = _
  rw [if_pos rfl, htl]
  dsimp only
  rw [hlines, hocc]

/-- Witness for C3 amended on the tree of `hits = ["a/b"]` at `active = 0`. -/
theorem c3_down_amended_witness :
    lastLines (create_levels [['a', '/', 'b']]) ≠ [] ∧
    move_active false true (create_levels [['a', '/', 'b']]) [['a', '/', 'b']] 0
      = if (0 : Int) < ((lastLines (create_levels [['a', '/', 'b']])).headI : Int)
        then 0 + 1 else 0 := by
  obtain ⟨h1, _, h3⟩ := c3_down_amended [['a', '/', 'b']] 0 (by decide)
  exact ⟨h1, h3⟩

/-! ### `path_splitter` on canonical relative paths (C10) -/

lemma takeWhile_append_all {p : Char → Bool} {l₁ : Str} (l₂ : Str)
    (h : ∀ x ∈ l₁, p x = true) :
    (l₁ ++ l₂).takeWhile p = l₁ ++ l₂.takeWhile p := by
  induction l₁ with
  | nil => simp
  | cons a l ih =>
    rw [List.cons_append, List.takeWhile_cons, h a (List.mem_cons_self a l),
      ih fun x hx => h x (List.mem_cons_of_mem a hx)]
    simp

lemma takeWhile_eq_self {p : Char → Bool} {l : Str} (h : ∀ x ∈ l, p x = true) :
    l.takeWhile p = l := by
  have := @takeWhile_append_all p l [] h
  simpa using this

lemma dropWhile_eq_self_of_head {p : Char → Bool} {l : Str}
    (h : ∀ c ∈ l.head?, p c = false) : l.dropWhile p = l := by
  cases l with
  | nil => rfl
  | cons a t =>
    rw [List.dropWhile_cons, h a rfl]
    simp

lemma pySplitTail_no_slash {p : Str} (h : '/' ∉ p) : pySplitTail p = p := by
  unfold pySplitTail
  have htw : p.reverse.takeWhile (fun c => c ≠ '/') = p.reverse := by
    apply takeWhile_eq_self
    intro x hx
    have hxs : x ≠ '/' := fun hc => h (hc ▸ List.mem_reverse.mp hx)
    simp [hxs]
  rw [htw, List.reverse_reverse]

lemma pySplit_no_slash {p : Str} (h : '/' ∉ p) : pySplit p = ([], p) := by
  have hraw : pySplitHeadRaw p = [] := by
    unfold pySplitHeadRaw
    rw [pySplitTail_no_slash h, Nat.sub_self, List.take_zero]
  unfold pySplit
  rw [hraw, pySplitTail_no_slash h]
  simp

lemma ic_nil : List.intercalate ['/'] ([] : List Str) = [] := by
  simp [List.intercalate]

lemma ic_singleton (s : Str) : List.intercalate ['/'] [s] = s := by
  simp [List.intercalate]

lemma ic_cons_cons (a b : Str) (l : List Str) :
    List.intercalate ['/'] (a :: b :: l)
      = a ++ '/' :: List.intercalate ['/'] (b :: l) := by
  simp [List.intercalate, List.intersperse_cons_cons]

lemma ic_ne_nil {segs : List Str} (hg : ∀ s ∈ segs, s ≠ [] ∧ '/' ∉ s)
    (hne : segs ≠ []) : List.intercalate ['/'] segs ≠ [] := by
  cases segs with
  | nil => exact absurd rfl hne
  | cons s t =>
    cases t with
    | nil =>
      rw [ic_singleton]
      exact (hg s (List.mem_cons_self s [])).1
    | cons b t' =>
      rw [ic_cons_cons]
      exact List.append_ne_nil_of_right_ne_nil s (List.cons_ne_nil '/' _)

lemma ic_concat {init : List Str} (last : Str) (hne : init ≠ []) :
    List.intercalate ['/'] (init ++ [last])
      = List.intercalate ['/'] init ++ '/' :: last := by
  induction init with
  | nil => exact absurd rfl hne
  | cons s t ih =>
    cases t with
    | nil =>
      rw [List.cons_append, List.nil_append, ic_cons_cons, ic_singleton, ic_singleton]
    | cons b t' =>
      have h1 : (s :: b :: t') ++ [last] = s :: b :: (t' ++ [last]) := by simp
      rw [h1, ic_cons_cons s b (t' ++ [last]), ← List.cons_append b t' [last],
        ih (List.cons_ne_nil b t'), ic_cons_cons s b t']
      simp [List.append_assoc]

lemma ic_getLast_ne_slash {segs : List Str} (hg : ∀ s ∈ segs, s ≠ [] ∧ '/' ∉ s) :
    segs ≠ [] → ∀ c, (List.intercalate ['/'] segs).getLast? = some c → c ≠ '/' := by
  induction segs with
  | nil => intro hne; exact absurd rfl hne
  | cons s t ih =>
    intro _ c hc
    cases t with
    | nil =>
      rw [ic_singleton] at hc
      intro hslash
      exact (hg s (List.mem_cons_self s [])).2 (hslash ▸ mem_of_getLast?_eq hc)
    | cons b t' =>
      rw [ic_cons_cons] at hc
      have hbt : List.intercalate ['/'] (b :: t') ≠ [] :=
        ic_ne_nil (fun x hx => hg x (List.mem_cons_of_mem s hx)) (List.cons_ne_nil b t')
      obtain ⟨cl, hcl⟩ : ∃ cl, (List.intercalate ['/'] (b :: t')).getLast? = some cl := by
        cases hgl : (List.intercalate ['/'] (b :: t')).getLast? with
        | none => exact absurd (List.getLast?_eq_none_iff.mp hgl) hbt
        | some cl => exact ⟨cl, rfl⟩
      have hcons : ('/' :: List.intercalate ['/'] (b :: t')).getLast? = some cl := by
        have h2 : ('/' :: List.intercalate ['/'] (b :: t'))
            = ['/'] ++ List.intercalate ['/'] (b :: t') := rfl
        rw [h2, List.getLast?_append, hcl]
        rfl
      rw [List.getLast?_append, hcons] at hc
      have hc2 : some cl = some c := hc
      cases hc2
      exact ih (fun x hx => hg x (List.mem_cons_of_mem s hx)) (List.cons_ne_nil b t') c hcl

lemma segs_len_le_ic_len (segs : List Str) :
    segs.length ≤ (List.intercalate ['/'] segs).length + 1 := by
  induction segs with
  | nil => simp
  | cons s t ih =>
    cases t with
    | nil => simp
    | cons b t' =>
      rw [ic_cons_cons]
      simp only [List.length_cons, List.length_append] at ih ⊢
      omega

lemma ic_exists_ne_slash {segs : List Str} (hg : ∀ s ∈ segs, s ≠ [] ∧ '/' ∉ s)
    (hne : segs ≠ []) : ∃ c ∈ List.intercalate ['/'] segs, ¬c = '/' := by
  cases segs with
  | nil => exact absurd rfl hne
  | cons s t =>
    obtain ⟨hs, hsl⟩ := hg s (List.mem_cons_self s t)
    obtain ⟨a, s', rfl⟩ : ∃ a s', s = a :: s' := by
      cases s with
      | nil => exact absurd rfl hs
      | cons a s' => exact ⟨a, s', rfl⟩
    have ha : ¬a = '/' := fun h => hsl (h ▸ List.mem_cons_self a s')
    cases t with
    | nil =>
      rw [ic_singleton]
      exact ⟨a, List.mem_cons_self a s', ha⟩
    | cons b t' =>
      rw [ic_cons_cons]
      exact ⟨a, List.mem_append_left _ (List.mem_cons_self a s'), ha⟩

lemma pySplitTail_ic {init : List Str} (last : Str) (hl : '/' ∉ last) :
    pySplitTail (List.intercalate ['/'] init ++ '/' :: last) = last := by
  unfold pySplitTail
  have hrev : (List.intercalate ['/'] init ++ '/' :: last).reverse
      = last.reverse ++ '/' :: (List.intercalate ['/'] init).reverse := by
    rw [List.reverse_append, List.reverse_cons, List.append_assoc]
    rfl
  rw [hrev, takeWhile_append_all]
  · rw [List.takeWhile_cons]
    simp
  · intro x hx
    have hxs : x ≠ '/' := fun hc => hl (hc ▸ List.mem_reverse.mp hx)
    simp [hxs]

lemma pySplitHeadRaw_ic {init : List Str} (last : Str) (hl : '/' ∉ last) :
    pySplitHeadRaw (List.intercalate ['/'] init ++ '/' :: last)
      = List.intercalate ['/'] init ++ ['/'] := by
  unfold pySplitHeadRaw
  rw [pySplitTail_ic last hl]
  have hsplit : List.intercalate ['/'] init ++ '/' :: last
      = (List.intercalate ['/'] init ++ ['/']) ++ last := by
    rw [List.append_assoc]
    rfl
  have hlen : (List.intercalate ['/'] init ++ '/' :: last).length - last.length
      = (List.intercalate ['/'] init ++ ['/']).length := by
    simp only [List.length_append, List.length_cons, List.length_nil,
      List.length_singleton]
    omega
  rw [hlen, hsplit, List.take_left]

lemma pySplit_ic {init : List Str} (last : Str) (hinit : init ≠ [])
    (hgi : ∀ s ∈ init, s ≠ [] ∧ '/' ∉ s) (hl : '/' ∉ last) :
    pySplit (List.intercalate ['/'] init ++ '/' :: last)
      = (List.intercalate ['/'] init, last) := by
  have hraw := @pySplitHeadRaw_ic init last hl
  have hall : (List.intercalate ['/'] init ++ ['/']).all (fun c => c = '/') = false := by
    obtain ⟨c, hc, hcs⟩ := ic_exists_ne_slash hgi hinit
    rw [← Bool.not_eq_true, List.all_eq_true]
    intro hcontra
    exact hcs (of_decide_eq_true (hcontra c (List.mem_append_left _ hc)))
  obtain ⟨cl, hcl⟩ : ∃ cl, (List.intercalate ['/'] init).getLast? = some cl := by
    cases hg : (List.intercalate ['/'] init).getLast? with
    | none => exact absurd (List.getLast?_eq_none_iff.mp hg) (ic_ne_nil hgi hinit)
    | some cl => exact ⟨cl, rfl⟩
  have hcl_ne : cl ≠ '/' := ic_getLast_ne_slash hgi hinit cl hcl
  have hdrop : ((List.intercalate ['/'] init ++ ['/']).reverse.dropWhile
      (fun c => c = '/')).reverse = List.intercalate ['/'] init := by
    rw [List.reverse_append]
    simp only [List.reverse_cons, List.reverse_nil, List.nil_append, List.singleton_append]
    rw [List.dropWhile_cons]
    simp only [decide_True, if_true]
    rw [dropWhile_eq_self_of_head, List.reverse_reverse]
    intro c hc
    rw [List.head?_reverse, hcl] at hc
    cases hc
    simp [hcl_ne]
  unfold pySplit
  rw [hraw, hall, pySplitTail_ic last hl]
  simp only [Bool.false_eq_true, if_false]
  rw [hdrop]

/-- The recursion of `path_splitter` on a canonical relative path (joined
from non-empty, slash-free segments) yields one `(parent, name)` pair per
segment, root-first, the parent being the join of the preceding
segments. -/
lemma path_splitter_fuel_ic (n : Nat) :
    ∀ segs : List Str, segs ≠ [] → (∀ s ∈ segs, s ≠ [] ∧ '/' ∉ s) →
      segs.length ≤ n →
      path_splitter_fuel n (List.intercalate ['/'] segs)
        = (List.range segs.length).map fun i =>
            (List.intercalate ['/'] (segs.take i), segs.getD i []) := by
  induction n with
  | zero =>
    intro segs hne _ hlen
    rw [Nat.le_zero, List.length_eq_zero] at hlen
    exact absurd hlen hne
  | succ n ih =>
    intro segs hne hg hlen
    rcases List.eq_nil_or_concat segs with rfl | ⟨init, last, hseg⟩
    · exact absurd rfl hne
    · rw [List.concat_eq_append] at hseg
      subst hseg
      have hglast := hg last (List.mem_append_right init (List.mem_singleton_self last))
      by_cases hi : init = []
      · subst hi
        rw [List.nil_append, ic_singleton]
        simp only [path_splitter_fuel, pySplit_no_slash hglast.2]
        rw [if_neg (by simp), if_pos hglast.1]
        have hr1 : List.range [last].length = [0] := rfl
        rw [hr1, List.map_singleton, List.take_zero, ic_nil]
        rfl
      · have hgi : ∀ s ∈ init, s ≠ [] ∧ '/' ∉ s :=
          fun s hs => hg s (List.mem_append_left [last] hs)
        have hicne : List.intercalate ['/'] init ≠ [] := ic_ne_nil hgi hi
        rw [ic_concat last hi]
        simp only [path_splitter_fuel]
        rw [pySplit_ic last hi hgi hglast.2]
        dsimp only
        rw [if_pos hicne, ih init hi hgi (by simp at hlen; omega)]
        have hlen2 : (init ++ [last]).length = init.length + 1 := by simp
        rw [hlen2, List.range_succ, List.map_append]
        congr 1
        · apply List.map_congr_left
          intro i hi'
          have hilt : i < init.length := List.mem_range.mp hi'
          rw [List.take_append_of_le_length (le_of_lt hilt)]
          rw [List.getD_eq_getElem?_getD, List.getD_eq_getElem?_getD,
            List.getElem?_append_left hilt]
        · rw [List.map_singleton, List.take_left]
          rw [List.getD_eq_getElem?_getD, List.getElem?_concat_length]
          rfl

/-- Joining a parent with the next segment inverts `pySplit`:
`os.path.join(parent, name)` restores the canonical path. -/
lemma pyJoin_ic {init : List Str} {last : Str}
    (hgi : ∀ s ∈ init, s ≠ [] ∧ '/' ∉ s) (hlast : last ≠ [] ∧ '/' ∉ last) :
    pyJoin (List.intercalate ['/'] init) last
      = List.intercalate ['/'] (init ++ [last]) := by
  have htake : last.take 1 ≠ ['/'] := by
    obtain ⟨a, s', rfl⟩ : ∃ a s', last = a :: s' := by
      cases last with
      | nil => exact absurd rfl hlast.1
      | cons a s' => exact ⟨a, s', rfl⟩
    have ha : a ≠ '/' := fun h => hlast.2 (h ▸ List.mem_cons_self a s')
    have h1 : (a :: s').take 1 = [a] := by simp
    rw [h1]
    intro h
    injection h with h2 _
    exact ha h2
  by_cases hi : init = []
  · subst hi
    rw [ic_nil]
    unfold pyJoin
    rw [if_neg htake, if_pos (Or.inl rfl), List.nil_append, List.nil_append,
      ic_singleton]
  · have hicne : List.intercalate ['/'] init ≠ [] := ic_ne_nil hgi hi
    obtain ⟨cl, hcl⟩ : ∃ cl, (List.intercalate ['/'] init).getLast? = some cl := by
      cases hgl : (List.intercalate ['/'] init).getLast? with
      | none => exact absurd (List.getLast?_eq_none_iff.mp hgl) hicne
      | some cl => exact ⟨cl, rfl⟩
    have hcl_ne : cl ≠ '/' := ic_getLast_ne_slash hgi hi cl hcl
    unfold pyJoin
    rw [if_neg htake, if_neg ?hcond, ic_concat last hi]
    case hcond =>
      rintro (h | h)
      · exact hicne h
      · rw [hcl] at h
        have h2 : cl = '/' := by injection h
        exact hcl_ne h2

lemma splitOnP_sep_not_mem (x : Char) : ∀ p : Str, ∀ s ∈ p.splitOnP (· == x), x ∉ s := by
  intro p
  induction p with
  | nil =>
    intro s hs
    rw [List.splitOnP_nil] at hs
    rcases List.mem_singleton.mp hs with rfl
    simp
  | cons a t ih =>
    intro s hs
    rw [List.splitOnP_cons] at hs
    by_cases hax : a = x
    · rw [if_pos (by simp [hax])] at hs
      rcases List.mem_cons.mp hs with rfl | hs'
      · simp
      · exact ih s hs'
    · rw [if_neg (by simp [hax])] at hs
      cases hsp : t.splitOnP (· == x) with
      | nil => exact absurd hsp (List.splitOnP_ne_nil _ t)
      | cons hd tl =>
        rw [hsp] at hs
        dsimp only [List.modifyHead] at hs
        rcases List.mem_cons.mp hs with rfl | hs'
        · intro hx
          rcases List.mem_cons.mp hx with rfl | hx'
          · exact hax rfl
          · exact ih hd (hsp ▸ List.mem_cons_self hd tl) hx'
        · exact ih s (hsp ▸ List.mem_cons_of_mem hd hs')

lemma splitOn_sep_not_mem (x : Char) (p : Str) : ∀ s ∈ p.splitOn x, x ∉ s :=
  splitOnP_sep_not_mem x p

lemma splitOn_ne_nil (x : Char) (p : Str) : p.splitOn x ≠ [] :=
  List.splitOnP_ne_nil _ p

/-- C10 counterexample.  `"a//b"` is a non-empty relative path (it does not
start with `'/'`), yet `path_splitter` collapses the doubled slash: it
returns 2 pairs while the path has 3 `'/'`-separated segments, and joining
the last pair gives back `"a/b"`, not the input. -/
theorem c10_path_splitter_counterexample :
    (['a', '/', '/', 'b'] : Str) ≠ [] ∧
    (['a', '/', '/', 'b'] : Str).head? ≠ some '/' ∧
    path_splitter ['a', '/', '/', 'b'] = [([], ['a']), (['a'], ['b'])] ∧
    (path_splitter ['a', '/', '/', 'b']).length = 2 ∧
    ((['a', '/', '/', 'b'] : Str).splitOn '/').length = 3 ∧
    ((path_splitter ['a', '/', '/', 'b']).getLast?.map fun q => pyJoin q.1 q.2)
      ≠ some ['a', '/', '/', 'b'] := by
  refine ⟨by decide, by decide, by decide, by decide, by decide, by decide⟩

/-- C10 amended.  For every non-empty relative path whose `'/'`-separated
segments are all non-empty (no leading, trailing or doubled separator),
`path_splitter` returns one `(parent, name)` pair per segment in root-first
order, the parent of pair `i` being the `'/'`-join of the preceding
segments; the number of pairs equals the number of segments, and
`os.path.join` of the last pair reconstructs the input; on the empty string
it returns the empty list. -/
theorem c10_path_splitter (p : Str) (hp : p ≠ [])
    (hgood : ∀ s ∈ p.splitOn '/', s ≠ []) :
    (path_splitter p
        = (List.range (p.splitOn '/').length).map fun i =>
            (List.intercalate ['/'] ((p.splitOn '/').take i), (p.splitOn '/').getD i [])) ∧
    (path_splitter p).length = (p.splitOn '/').length ∧
    ((path_splitter p).getLast?.map fun q => pyJoin q.1 q.2) = some p ∧
    path_splitter ([] : Str) = [] := by
  have hg : ∀ s ∈ p.splitOn '/', s ≠ [] ∧ '/' ∉ s :=
    fun s hs => ⟨hgood s hs, splitOn_sep_not_mem '/' p s hs⟩
  have hne : p.splitOn '/' ≠ [] := splitOn_ne_nil '/' p
  have hic : List.intercalate ['/'] (p.splitOn '/') = p := List.intercalate_splitOn p '/'
  have hmain : path_splitter p
      = (List.range (p.splitOn '/').length).map fun i =>
          (List.intercalate ['/'] ((p.splitOn '/').take i), (p.splitOn '/').getD i []) := by
    conv_lhs => rw [← hic]
    unfold path_splitter
    exact path_splitter_fuel_ic _ _ hne hg
      (le_trans (segs_len_le_ic_len _) (by rw [hic]))
  refine ⟨hmain, ?_, ?_, rfl⟩
  · rw [hmain, List.length_map, List.length_range]
  · rw [hmain]
    rcases List.eq_nil_or_concat (p.splitOn '/') with hnil | ⟨init, last, hseg⟩
    · exact absurd hnil hne
    · rw [List.concat_eq_append] at hseg
      rw [hseg]
      have hlen2 : (init ++ [last]).length = init.length + 1 := by simp
      rw [hlen2, List.range_succ, List.map_append, List.map_singleton,
        List.getLast?_concat]
      rw [Option.map_some']
      rw [List.take_left, List.getD_eq_getElem?_getD, List.getElem?_concat_length]
      have hgi : ∀ s ∈ init, s ≠ [] ∧ '/' ∉ s :=
        fun s hs => hg s (hseg ▸ List.mem_append_left [last] hs)
      have hglast : last ≠ [] ∧ '/' ∉ last :=
        hg last (hseg ▸ List.mem_append_right init (List.mem_singleton_self last))
      show some (pyJoin (List.intercalate ['/'] init) last) = some p
      rw [pyJoin_ic hgi hglast, ← hseg, hic]

/-- Witness for C10 amended at `p = "a/b"`. -/
theorem c10_path_splitter_witness :
    (path_splitter ['a', '/', 'b']
        = (List.range ((['a', '/', 'b'] : Str).splitOn '/').length).map fun i =>
            (List.intercalate ['/'] (((['a', '/', 'b'] : Str).splitOn '/').take i),
              ((['a', '/', 'b'] : Str).splitOn '/').getD i [])) ∧
    (path_splitter ['a', '/', 'b']).length = ((['a', '/', 'b'] : Str).splitOn '/').length ∧
    ((path_splitter ['a', '/', 'b']).getLast?.map fun q => pyJoin q.1 q.2)
      = some ['a', '/', 'b'] ∧
    path_splitter ([] : Str) = [] :=
  c10_path_splitter ['a', '/', 'b'] (by decide) (by decide)

end Fsok
